import Mathlib

/-!  Shallow embedding of the ring30mix pseudo-random generator.

The definitions below translate `rand/ring30mix.go` (state, evolution step,
output mixing, `Uint64`, `Read`) and the math/rand compatibility layer
(`Int63`, `Int63n`, `Int31n`, `Intn`, `Float64`, `Float32`) into Lean.
Machine words are natural numbers reduced modulo `2 ^ 64` wherever the Go
code can overflow; Go panics are modelled by an explicit result
constructor; the two rejection-sampling loops carry explicit fuel, `none`
meaning the fuel ran out.  -/

namespace Ring30Mix

/-- The 256-bit ring: four 64-bit machine words (`RNG.state` in the Go source). -/
@[ext]
structure CAState where
  s0 : Nat
  s1 : Nat
  s2 : Nat
  s3 : Nat
deriving Repr, DecidableEq

/-- Word `i` of the state, `r.state[i]` in Go (indices 0-3 are the only ones used). -/
def CAState.word (s : CAState) : Nat → Nat
  | 0 => s.s0
  | 1 => s.s1
  | 2 => s.s2
  | _ => s.s3

/-- All four words fit in 64 bits. -/
def CAState.Valid (s : CAState) : Prop :=
  s.s0 < 2 ^ 64 ∧ s.s1 < 2 ^ 64 ∧ s.s2 < 2 ^ 64 ∧ s.s3 < 2 ^ 64

instance (s : CAState) : Decidable s.Valid :=
  inferInstanceAs (Decidable (s.s0 < 2 ^ 64 ∧ s.s1 < 2 ^ 64 ∧ s.s2 < 2 ^ 64 ∧ s.s3 < 2 ^ 64))

/-- One word of the radius-1 Rule 30 update, exactly as written in `RNG.step`:
`c` is the word being updated, `l` is the word whose bit 0 supplies the left
neighbor of bit 63 of `c`, and `r` is the word whose bit 63 supplies the right
neighbor of bit 0 of `c`.  The Go line is
`((c >> 1) | ((l & 1) << 63)) ^ (c | ((c << 1) | (r >> 63)))`, with the left
shift wrapping modulo `2 ^ 64`. -/
def wordStep (c l r : Nat) : Nat :=
  ((c >>> 1) ||| ((l &&& 1) <<< 63)) ^^^ (c ||| (((c <<< 1) % 2 ^ 64) ||| (r >>> 63)))

/-- Radius-1 Rule 30 on the 256-bit ring (`RNG.step`): every word is updated
from the snapshot `s` of the previous generation. -/
def step (s : CAState) : CAState where
  s0 := wordStep s.s0 s.s3 s.s1
  s1 := wordStep s.s1 s.s0 s.s2
  s2 := wordStep s.s2 s.s1 s.s3
  s3 := wordStep s.s3 s.s2 s.s0

/-- Left rotation by 13 of a 64-bit word, `bits.RotateLeft64(x, 13)` in Go. -/
def rotl13 (x : Nat) : Nat := ((x <<< 13) % 2 ^ 64) ||| (x >>> 51)

/-- Output mixing function `mix` from the Go source: rotate-xor, multiply by
the odd constant `0x9e3779b97f4a7c15` modulo `2 ^ 64`, then xor-shift by 27. -/
def mix (x : Nat) : Nat :=
  let a := x ^^^ rotl13 x
  let b := (a * 0x9e3779b97f4a7c15) % 2 ^ 64
  b ^^^ (b >>> 27)

/-- Generator: the ring plus the output position cursor (`RNG` in Go). -/
structure RNG where
  state : CAState
  pos : Nat
deriving Repr, DecidableEq

/-- The seeded initial ring of `New`, before the 16 mixing steps: word 0 is
the raw seed, words 1-3 xor the seed with three fixed 64-bit constants. -/
def initState (seed : Nat) : CAState where
  s0 := seed
  s1 := seed ^^^ 0x9e3779b97f4a7c15
  s2 := seed ^^^ 0x3c6ef372fe94f82a
  s3 := seed ^^^ 0x78dde6e5fd29f054

/-- Constructor `New`: seed the ring, run 16 evolution steps, cursor at 0. -/
def new (seed : Nat) : RNG where
  state := step^[16] (initState seed)
  pos := 0

/-- Index of the state word that a `Uint64` call reads: when the generation is
exhausted (`pos = 4`) the cursor is reset to 0 first. -/
def readIndex (g : RNG) : Nat := if g.pos = 4 then 0 else g.pos

/-- Method `Uint64`: advance the ring when all four words are consumed, then
return the next word passed through `mix`, advancing the cursor. -/
def uint64 (g : RNG) : Nat × RNG :=
  let st := if g.pos = 4 then step g.state else g.state
  (mix (st.word (readIndex g)), ⟨st, readIndex g + 1⟩)

/-- Generator state after one `Uint64` call. -/
def next (g : RNG) : RNG := (uint64 g).2

/-- The k-th value of the `Uint64` output sequence started at `g`. -/
def draws (g : RNG) (k : Nat) : Nat := (uint64 (next^[k] g)).1

/-- The `count` low-order bytes of `v`, least significant first (the byte
order used by both the 8-byte chunks and the tail loop of `Read`). -/
def toLEBytes (v : Nat) : Nat → List Nat
  | 0 => []
  | count + 1 => v % 2 ^ 8 :: toLEBytes (v / 2 ^ 8) count

/-- The full-word part of `Read`: `k` consecutive `Uint64` draws, each written
as 8 little-endian bytes. -/
def readWords (k : Nat) (g : RNG) : List Nat × RNG :=
  match k with
  | 0 => ([], g)
  | k + 1 =>
    (toLEBytes (uint64 g).1 8 ++ (readWords k (uint64 g).2).1, (readWords k (uint64 g).2).2)

/-- Method `Read` on a buffer of `n` bytes: the loop writes `n / 8` full words;
if `n` is not a multiple of 8 one more word is drawn and only its low `n % 8`
bytes are written, the rest of that word being discarded. -/
def readBytes (n : Nat) (g : RNG) : List Nat × RNG :=
  if n % 8 = 0 then readWords (n / 8) g
  else
    ((readWords (n / 8) g).1 ++ toLEBytes (uint64 (readWords (n / 8) g).2).1 (n % 8),
     (uint64 (readWords (n / 8) g).2).2)

/-- A sequence of `Read` calls with the given buffer sizes; the byte lists are
concatenated. -/
def readChunks (g : RNG) : List Nat → List Nat × RNG
  | [] => ([], g)
  | n :: ns =>
    ((readBytes n g).1 ++ (readChunks (readBytes n g).2 ns).1,
     (readChunks (readBytes n g).2 ns).2)

/-- Method `Uint32`: truncate a `Uint64` draw to 32 bits. -/
def uint32 (g : RNG) : Nat × RNG :=
  ((uint64 g).1 % 2 ^ 32, (uint64 g).2)

/-- Method `Int63`: clear the sign bit of a `Uint64` draw; the result always
fits in 63 bits, so it is represented as a natural number. -/
def int63 (g : RNG) : Nat × RNG :=
  ((uint64 g).1 &&& 0x7FFFFFFFFFFFFFFF, (uint64 g).2)

/-- Method `Int31`: the top 31 bits of a `Uint32` draw. -/
def int31 (g : RNG) : Nat × RNG :=
  ((uint32 g).1 >>> 1, (uint32 g).2)

/-- Result of a Go method call that may terminate the program: a normal
return value, or a run-time panic carrying its message. -/
inductive GoResult (α : Type) where
  | ok (a : α)
  | panicked (msg : String)
deriving Repr, DecidableEq

/-- Rejection threshold computed by `Int63n` for a non-power-of-two bound `m`:
`(1 << 63) - 1 - (1 << 63) % uint64(n)` in the Go source. -/
def int63nMax (m : Nat) : Nat := 2 ^ 63 - 1 - 2 ^ 63 % m

/-- The rejection loop of `Int63n` (`for v > max { v = r.Int63() }`), with
explicit fuel; `none` means the fuel ran out before a draw was accepted. -/
def int63nLoop (max : Nat) : Nat → Nat → RNG → Option (Nat × RNG)
  | fuel, v, g =>
    if v ≤ max then some (v, g)
    else
      match fuel with
      | 0 => none
      | fuel + 1 => int63nLoop max fuel (int63 g).1 (int63 g).2

/-- Method `Int63n`: panic on a non-positive bound; mask a single draw when
the bound is a power of two; otherwise rejection-sample and reduce modulo the
bound. -/
def int63n (fuel : Nat) (g : RNG) (n : Int) : Option (GoResult Int × RNG) :=
  if n ≤ 0 then some (.panicked "invalid argument to Int63n", g)
  else if n.toNat &&& (n.toNat - 1) = 0 then
    some (.ok ((((int63 g).1 &&& (n.toNat - 1) : Nat) : Int)), (int63 g).2)
  else
    match int63nLoop (int63nMax n.toNat) fuel (int63 g).1 (int63 g).2 with
    | none => none
    | some (w, g') => some (.ok (((w % n.toNat : Nat) : Int)), g')

/-- Rejection threshold computed by `Int31n` for a non-power-of-two bound. -/
def int31nMax (m : Nat) : Nat := 2 ^ 31 - 1 - 2 ^ 31 % m

/-- The rejection loop of `Int31n`, with explicit fuel. -/
def int31nLoop (max : Nat) : Nat → Nat → RNG → Option (Nat × RNG)
  | fuel, v, g =>
    if v ≤ max then some (v, g)
    else
      match fuel with
      | 0 => none
      | fuel + 1 => int31nLoop max fuel (int31 g).1 (int31 g).2

/-- Method `Int31n`, the 32-bit analogue of `Int63n`. -/
def int31n (fuel : Nat) (g : RNG) (n : Int) : Option (GoResult Int × RNG) :=
  if n ≤ 0 then some (.panicked "invalid argument to Int31n", g)
  else if n.toNat &&& (n.toNat - 1) = 0 then
    some (.ok ((((int31 g).1 &&& (n.toNat - 1) : Nat) : Int)), (int31 g).2)
  else
    match int31nLoop (int31nMax n.toNat) fuel (int31 g).1 (int31 g).2 with
    | none => none
    | some (w, g') => some (.ok (((w % n.toNat : Nat) : Int)), g')

/-- Method `Intn`, with Go's `int` modelled as 64-bit: panic on a non-positive
bound, otherwise dispatch to `Int31n` for small bounds and `Int63n` for large
ones. -/
def intn (fuel : Nat) (g : RNG) (n : Int) : Option (GoResult Int × RNG) :=
  if n ≤ 0 then some (.panicked "invalid argument to Intn", g)
  else if n ≤ 2 ^ 31 - 1 then int31n fuel g n
  else int63n fuel g n

/-- Method `Float64`, `float64(r.Int63()>>11) / (1 << 52)` in Go, modelled
exactly over the rationals: the numerator is an integer below `2 ^ 52`, so
the conversion to binary64 and the division by a power of two are exact and
the rational value is the value of the returned float. -/
def float64 (g : RNG) : ℚ × RNG :=
  ((((int63 g).1 >>> 11 : Nat) : ℚ) / 2 ^ 52, (int63 g).2)

/-- Method `Float32`, `float32(r.Int31()>>7) / (1 << 24)` in Go, modelled
exactly over the rationals for the same reason as `float64`. -/
def float32 (g : RNG) : ℚ × RNG :=
  ((((int31 g).1 >>> 7 : Nat) : ℚ) / 2 ^ 24, (int31 g).2)

/-- Spec-side uniform double for comparison with `float64`: the top 53 bits of
a non-negative 63-bit draw, scaled by `2 ^ 53` (spec section 4.6). -/
def specFloat64 (g : RNG) : ℚ × RNG :=
  ((((int63 g).1 >>> 10 : Nat) : ℚ) / 2 ^ 53, (int63 g).2)

/-- Bit `k` of word `i` of the state. -/
def CAState.bit (s : CAState) (i k : Nat) : Bool := (s.word i).testBit k

/-- Radius-1 Rule 30 on a single bit: `new = left XOR (center OR right)`. -/
def rule30Bit (l c r : Bool) : Bool := Bool.xor l (c || r)

/-- The naive per-bit Rule 30 reference on the 256-bit ring: bit `k` of word
`i` of the next generation, with every neighbor read from the snapshot `s`;
at word boundaries the missing neighbor bit is borrowed from the adjacent
word of the ring (mod 4). -/
def stepSpecBit (s : CAState) (i k : Nat) : Bool :=
  rule30Bit
    (if k = 63 then s.bit ((i + 3) % 4) 0 else s.bit i (k + 1))
    (s.bit i k)
    (if k = 0 then s.bit ((i + 1) % 4) 63 else s.bit i (k - 1))

/-- Pack the first `w` bits produced by `f` into a natural number. -/
def ofBits (f : Nat → Bool) : Nat → Nat
  | 0 => 0
  | w + 1 => (if f w then 2 ^ w else 0) + ofBits f w

/-- The whole-state naive reference step: all 256 bits computed from the
snapshot `s` by the per-bit Rule 30 definition. -/
def stepRef (s : CAState) : CAState where
  s0 := ofBits (stepSpecBit s 0) 64
  s1 := ofBits (stepSpecBit s 1) 64
  s2 := ofBits (stepSpecBit s 2) 64
  s3 := ofBits (stepSpecBit s 3) 64

/-- The canonical avalanche transform as the spec words it: xor with the left
rotation by 13 (written arithmetically on 64 bits), multiply by the fixed odd
constant modulo `2 ^ 64`, xor with the right shift by 27, in that order. -/
def mixSpec (x : Nat) : Nat :=
  let a := x ^^^ ((x % 2 ^ 51) * 2 ^ 13 + x / 2 ^ 51)
  let b := (a * 0x9e3779b97f4a7c15) % 2 ^ 64
  b ^^^ b / 2 ^ 27

/-- Generator states reachable from some seed through `Uint64` calls (every
other accessor consumes words only through `Uint64`). -/
inductive Reachable : RNG → Prop where
  | base (seed : Nat) : Reachable (new seed)
  | stepOn (g : RNG) : Reachable g → Reachable (uint64 g).2

/-- The behaviour claimed for `Int63n` at a positive 63-bit bound `n`:
results lie in `[0, n)`; a power-of-two bound takes a single draw masked with
`n - 1`; otherwise the threshold is one less than the largest multiple of `n`
below `2 ^ 63`, draws above it are rejected and redrawn, the accepted draw is
reduced modulo `n`, and every residue is hit by equally many accepted draw
values. -/
def Int63nClaim (fuel : Nat) (g : RNG) (n : Int) : Prop :=
  (∀ res g', int63n fuel g n = some (.ok res, g') → 0 ≤ res ∧ res < n) ∧
  ((∃ k, n.toNat = 2 ^ k) →
    int63n fuel g n = some (.ok (((int63 g).1 &&& (n.toNat - 1) : Nat) : Int), (int63 g).2)) ∧
  ((¬ ∃ k, n.toNat = 2 ^ k) →
    (int63nMax n.toNat + 1 = 2 ^ 63 / n.toNat * n.toNat ∧
      2 ^ 63 / n.toNat * n.toNat ≤ 2 ^ 63 - 1 ∧
      2 ^ 63 - 1 < 2 ^ 63 / n.toNat * n.toNat + n.toNat) ∧
    (∀ v g1, v ≤ int63nMax n.toNat → int63nLoop (int63nMax n.toNat) fuel v g1 = some (v, g1)) ∧
    (∀ v g1, int63nMax n.toNat < v →
      int63nLoop (int63nMax n.toNat) (fuel + 1) v g1 =
        int63nLoop (int63nMax n.toNat) fuel (int63 g1).1 (int63 g1).2) ∧
    (∀ w g', int63n fuel g n = some (.ok w, g') →
      ∃ v, v ≤ int63nMax n.toNat ∧ w = ((v % n.toNat : Nat) : Int)) ∧
    (∀ t, t < n.toNat →
      ((Finset.range (2 ^ 63)).filter
        (fun v => v ≤ int63nMax n.toNat ∧ v % n.toNat = t)).card = 2 ^ 63 / n.toNat))

/-!  Helper lemmas. -/

/-- Bits at or above position 64 of a 64-bit word are clear. -/
lemma testBit_ge_64 {x : Nat} (hx : x < 2 ^ 64) {j : Nat} (hj : 64 ≤ j) : x.testBit j = false :=
  Nat.testBit_lt_two_pow (lt_of_lt_of_le hx (Nat.pow_le_pow_right (by norm_num) hj))

/-- Disjoint or is addition: the low `i` bits come from `b`, the rest from `a`. -/
lemma mul_pow_lor_eq_add (a b i : Nat) (hb : b < 2 ^ i) : a * 2 ^ i ||| b = a * 2 ^ i + b := by
  apply Nat.eq_of_testBit_eq
  intro j
  have hadd : (a * 2 ^ i + b).testBit j = if j < i then b.testBit j else a.testBit (j - i) := by
    rw [Nat.mul_comm a (2 ^ i)]
    exact Nat.testBit_mul_pow_two_add a hb j
  rw [Nat.testBit_or, hadd]
  by_cases hj : j < i
  · have h1 : (a * 2 ^ i).testBit j = false := by
      rw [← Nat.shiftLeft_eq, Nat.testBit_shiftLeft]
      simp [Nat.not_le.2 hj]
    simp [hj, h1]
  · have h1 : b.testBit j = false :=
      Nat.testBit_lt_two_pow
        (lt_of_lt_of_le hb (Nat.pow_le_pow_right (by norm_num) (Nat.not_lt.1 hj)))
    rw [← Nat.shiftLeft_eq, Nat.testBit_shiftLeft]
    simp [hj, h1, Nat.not_lt.1 hj]

/-- A rotation output fits in 64 bits. -/
lemma rotl13_lt (x : Nat) (hx : x < 2 ^ 64) : rotl13 x < 2 ^ 64 := by
  apply Nat.or_lt_two_pow
  · exact Nat.mod_lt _ (by norm_num)
  · rw [Nat.shiftRight_eq_div_pow]
    exact lt_of_le_of_lt (Nat.div_le_self _ _) hx

/-- Bit description of the left rotation by 13. -/
lemma testBit_rotl13 (x : Nat) (hx : x < 2 ^ 64) (j : Nat) (hj : j < 64) :
    (rotl13 x).testBit j = if j < 13 then x.testBit (51 + j) else x.testBit (j - 13) := by
  rw [rotl13, Nat.testBit_or, Nat.testBit_mod_two_pow, Nat.testBit_shiftLeft,
    Nat.testBit_shiftRight]
  by_cases h13 : j < 13
  · simp [h13, hj, Nat.not_le.2 h13]
  · have h1 : x.testBit (51 + j) = false := testBit_ge_64 hx (by omega)
    simp [h13, hj, Nat.not_lt.1 h13, h1]

/-- Rotation commutes with complementing all 64 bits. -/
lemma rotl13_compl (x : Nat) (hx : x < 2 ^ 64) :
    rotl13 (x ^^^ (2 ^ 64 - 1)) = rotl13 x ^^^ (2 ^ 64 - 1) := by
  have hx' : x ^^^ (2 ^ 64 - 1) < 2 ^ 64 := Nat.xor_lt_two_pow hx (by norm_num)
  apply Nat.eq_of_testBit_eq
  intro j
  by_cases hj : j < 64
  · rw [testBit_rotl13 _ hx' j hj]
    simp only [Nat.testBit_xor]
    rw [testBit_rotl13 x hx j hj]
    simp only [Nat.testBit_two_pow_sub_one]
    by_cases h13 : j < 13
    · simp [h13, hj, show 51 + j < 64 by omega]
    · simp [h13, hj, show j - 13 < 64 by omega]
  · have h1 : rotl13 (x ^^^ (2 ^ 64 - 1)) < 2 ^ 64 := rotl13_lt _ hx'
    have h2 : rotl13 x ^^^ (2 ^ 64 - 1) < 2 ^ 64 :=
      Nat.xor_lt_two_pow (rotl13_lt x hx) (by norm_num)
    rw [testBit_ge_64 h1 (Nat.not_lt.1 hj), testBit_ge_64 h2 (Nat.not_lt.1 hj)]

/-!  C7: the mixing function is exactly the canonical avalanche transform. -/

/-- C7 (confirmed): for every 64-bit input, `mix` equals the canonical
transform — xor with rotate-left-13, multiply by `0x9e3779b97f4a7c15` modulo
`2 ^ 64`, xor with the right shift by 27, in that order. -/
theorem mix_matches_canonical (x : Nat) (hx : x < 2 ^ 64) : mix x = mixSpec x := by
  have hdiv : x / 2 ^ 51 < 2 ^ 13 := by
    rw [Nat.div_lt_iff_lt_mul (by norm_num : 0 < 2 ^ 51)]
    calc x < 2 ^ 64 := hx
      _ = 2 ^ 13 * 2 ^ 51 := by norm_num
  have hrot : rotl13 x = (x % 2 ^ 51) * 2 ^ 13 + x / 2 ^ 51 := by
    rw [rotl13, Nat.shiftLeft_eq, Nat.shiftRight_eq_div_pow,
      show (2 : Nat) ^ 64 = 2 ^ 51 * 2 ^ 13 by norm_num, Nat.mul_mod_mul_right]
    exact mul_pow_lor_eq_add _ _ _ hdiv
  simp only [mix, mixSpec, hrot, Nat.shiftRight_eq_div_pow]

/-- Witness for C7 at the input 3. -/
theorem mix_matches_canonical_witness : (3 : Nat) < 2 ^ 64 ∧ mix 3 = mixSpec 3 :=
  ⟨by norm_num, mix_matches_canonical 3 (by norm_num)⟩

/-!  C3: `mix` is not a bijection; it identifies every word with its
complement. -/

/-- C3 (counterexample): the distinct inputs 0 and `2 ^ 64 - 1` collide, so
`mix` is not injective on 64-bit words. -/
theorem mix_collision : mix 0 = mix (2 ^ 64 - 1) ∧ (0 : Nat) ≠ 2 ^ 64 - 1 :=
  ⟨by decide, by decide⟩

/-- C3 (amended): `mix` identifies complements — for every 64-bit word `x`,
the bitwise complement `x ^^^ (2 ^ 64 - 1)` has the same image, because the
first stage `x ^^^ rotl(x, 13)` sends complements to the same value. -/
theorem mix_complement (x : Nat) (hx : x < 2 ^ 64) : mix (x ^^^ (2 ^ 64 - 1)) = mix x := by
  have key : x ^^^ (2 ^ 64 - 1) ^^^ rotl13 (x ^^^ (2 ^ 64 - 1)) = x ^^^ rotl13 x := by
    rw [rotl13_compl x hx]
    calc x ^^^ (2 ^ 64 - 1) ^^^ (rotl13 x ^^^ (2 ^ 64 - 1))
        = x ^^^ ((2 ^ 64 - 1) ^^^ (rotl13 x ^^^ (2 ^ 64 - 1))) := by rw [Nat.xor_assoc]
      _ = x ^^^ ((2 ^ 64 - 1) ^^^ ((2 ^ 64 - 1) ^^^ rotl13 x)) := by
            rw [Nat.xor_comm (rotl13 x)]
      _ = x ^^^ ((2 ^ 64 - 1) ^^^ (2 ^ 64 - 1) ^^^ rotl13 x) := by rw [Nat.xor_assoc]
      _ = x ^^^ rotl13 x := by rw [Nat.xor_self, Nat.zero_xor]
  simp only [mix, key]

/-- Witness for C3's amended statement at the input 5. -/
theorem mix_complement_witness : (5 : Nat) < 2 ^ 64 ∧ mix (5 ^^^ (2 ^ 64 - 1)) = mix 5 :=
  ⟨by norm_num, mix_complement 5 (by norm_num)⟩

/-!  C2 and C6: behaviour on a non-positive bound. -/

/-- C2 (counterexample): `Int63n 0` panics — the call produces the run-time
panic `invalid argument to Int63n` instead of reporting a recoverable error
value to the caller. -/
theorem int63n_zero_panics :
    int63n 0 (new 0) 0 = some (.panicked "invalid argument to Int63n", new 0) := rfl

/-- C2 (amended): for every bound `n ≤ 0` each bounded-integer accessor
panics with its `invalid argument` message; none of them silently returns 0
or an unbounded value. -/
theorem invalid_bound_panics (fuel : Nat) (g : RNG) (n : Int) (h : n ≤ 0) :
    int63n fuel g n = some (.panicked "invalid argument to Int63n", g) ∧
    int31n fuel g n = some (.panicked "invalid argument to Int31n", g) ∧
    intn fuel g n = some (.panicked "invalid argument to Intn", g) := by
  refine ⟨?_, ?_, ?_⟩ <;> simp [int63n, int31n, intn, h]

/-- Witness for C2's amended statement at bound 0. -/
theorem invalid_bound_panics_witness :
    (0 : Int) ≤ 0 ∧
    (int63n 3 (new 0) 0 = some (.panicked "invalid argument to Int63n", new 0) ∧
      int31n 3 (new 0) 0 = some (.panicked "invalid argument to Int31n", new 0) ∧
      intn 3 (new 0) 0 = some (.panicked "invalid argument to Intn", new 0)) :=
  ⟨le_refl 0, invalid_bound_panics 3 (new 0) 0 (le_refl 0)⟩

/-- C6 (confirmed): a rejected bounded-integer request mutates nothing — the
panic happens before any word is consumed, the generator state coming out of
the call is the original one, and every subsequent draw is what it would have
been had the rejected request never been made. -/
theorem rejected_request_preserves_state (fuel : Nat) (g : RNG) (n : Int) (h : n ≤ 0) :
    int63n fuel g n = some (.panicked "invalid argument to Int63n", g) ∧
    (int63n fuel g n).elim g Prod.snd = g ∧
    (∀ k, draws ((int63n fuel g n).elim g Prod.snd) k = draws g k) := by
  have h1 : int63n fuel g n = some (.panicked "invalid argument to Int63n", g) := by
    simp [int63n, h]
  refine ⟨h1, ?_, ?_⟩ <;> simp [h1, Option.elim]

/-- Witness for C6 at bound -5. -/
theorem rejected_request_preserves_state_witness :
    (-5 : Int) ≤ 0 ∧
    (int63n 2 (new 3) (-5) = some (.panicked "invalid argument to Int63n", new 3) ∧
      (int63n 2 (new 3) (-5)).elim (new 3) Prod.snd = new 3 ∧
      (∀ k, draws ((int63n 2 (new 3) (-5)).elim (new 3) Prod.snd) k = draws (new 3) k)) :=
  ⟨by decide, rejected_request_preserves_state 2 (new 3) (-5) (by decide)⟩

/-!  C9: the position cursor stays in range. -/

/-- C9 (confirmed): the cursor is 0 after construction and at most 4 on every
reachable state, the state word consumed by `Uint64` is always at an index
below 4, a call made at cursor 4 advances the ring first, and each call
leaves the cursor one past the index it consumed. -/
theorem cursor_in_range (g : RNG) (h : Reachable g) :
    (∀ seed, (new seed).pos = 0) ∧
    g.pos ≤ 4 ∧
    readIndex g < 4 ∧
    (g.pos = 4 → (uint64 g).2.state = step g.state) ∧
    (uint64 g).2.pos = readIndex g + 1 := by
  have hpos : g.pos ≤ 4 := by
    induction h with
    | base seed => exact Nat.le_of_lt (by simp [new])
    | stepOn g' hg' ih =>
      show readIndex g' + 1 ≤ 4
      unfold readIndex
      split <;> omega
  refine ⟨fun seed => rfl, hpos, ?_, ?_, rfl⟩
  · unfold readIndex
    split <;> omega
  · intro h4
    simp [uint64, h4]

/-- Witness for C9 at the freshly constructed generator with seed 7. -/
theorem cursor_in_range_witness :
    Reachable (new 7) ∧
    ((∀ seed, (new seed).pos = 0) ∧
      (new 7).pos ≤ 4 ∧
      readIndex (new 7) < 4 ∧
      ((new 7).pos = 4 → (uint64 (new 7)).2.state = step (new 7).state) ∧
      (uint64 (new 7)).2.pos = readIndex (new 7) + 1) :=
  ⟨Reachable.base 7, cursor_in_range (new 7) (Reachable.base 7)⟩

/-!  C10: construction. -/

/-- C10 (confirmed): `New` stores the raw seed in word 0 and the seed xored
with three distinct fixed constants in words 1-3 (no special case for seed
0), applies exactly 16 evolution steps, and the first `Uint64` output is
`mix` of word 0 of the stepped ring; every output word passes through `mix`. -/
theorem new_seeds_then_16_steps (seed : Nat) :
    new seed = ⟨step^[16] (initState seed), 0⟩ ∧
    initState seed = ⟨seed, seed ^^^ 0x9e3779b97f4a7c15, seed ^^^ 0x3c6ef372fe94f82a,
      seed ^^^ 0x78dde6e5fd29f054⟩ ∧
    ((0x9e3779b97f4a7c15 : Nat) ≠ 0x3c6ef372fe94f82a ∧
      (0x9e3779b97f4a7c15 : Nat) ≠ 0x78dde6e5fd29f054 ∧
      (0x3c6ef372fe94f82a : Nat) ≠ 0x78dde6e5fd29f054) ∧
    (uint64 (new seed)).1 = mix ((step^[16] (initState seed)).word 0) ∧
    (∀ g : RNG, (uint64 g).1 =
      mix ((if g.pos = 4 then step g.state else g.state).word (readIndex g))) := by
  refine ⟨rfl, rfl, by decide, ?_, fun g => rfl⟩
  simp [uint64, new, readIndex]

/-!  C1: how `Read` behaves under chunking. -/

/-- Reading `a + b` words is reading `a` words and then `b` more. -/
lemma readWords_add (a b : Nat) (g : RNG) :
    readWords (a + b) g =
      ((readWords a g).1 ++ (readWords b (readWords a g).2).1,
        (readWords b (readWords a g).2).2) := by
  induction a generalizing g with
  | zero => simp [readWords]
  | succ a ih =>
    have hcomm : a + 1 + b = (a + b) + 1 := by omega
    rw [hcomm]
    show (toLEBytes (uint64 g).1 8 ++ (readWords (a + b) (uint64 g).2).1,
        (readWords (a + b) (uint64 g).2).2) = _
    rw [ih]
    simp [readWords, List.append_assoc]

/-- A read whose length is a multiple of 8 is exactly that many full words. -/
lemma readBytes_mul8 (k : Nat) (g : RNG) : readBytes (8 * k) g = readWords k g := by
  have h1 : 8 * k % 8 = 0 := Nat.mul_mod_right 8 k
  have h2 : 8 * k / 8 = k := Nat.mul_div_cancel_left k (by norm_num)
  simp [readBytes, h1, h2]

/-- Sums of multiples of 8 are multiples of 8. -/
lemma sum_mod8 (l : List Nat) (h : ∀ s ∈ l, s % 8 = 0) : l.sum % 8 = 0 := by
  induction l with
  | nil => simp
  | cons a l ih =>
    have ha : a % 8 = 0 := h a (List.mem_cons_self a l)
    have hl : l.sum % 8 = 0 := ih fun s hs => h s (List.mem_cons_of_mem a hs)
    simp only [List.sum_cons]
    omega

/-- C1 (amended): splitting a read into chunks that are each a multiple of 8
bytes (the word size) produces exactly the bytes of the single combined read;
in particular four 8-byte reads equal one 32-byte read.  (A chunk that is not
a multiple of 8 consumes a whole word and discards its unwritten high bytes,
so arbitrary chunking is not invariant.) -/
theorem read_aligned_chunks_eq (sizes : List Nat) (h : ∀ s ∈ sizes, s % 8 = 0) (g : RNG) :
    readChunks g sizes = readBytes sizes.sum g := by
  induction sizes generalizing g with
  | nil => simp [readChunks, readBytes, readWords]
  | cons n ns ih =>
    obtain ⟨k, hk⟩ : ∃ k, n = 8 * k :=
      ⟨n / 8, by have := h n (List.mem_cons_self n ns); omega⟩
    obtain ⟨m, hm⟩ : ∃ m, ns.sum = 8 * m :=
      ⟨ns.sum / 8, by have := sum_mod8 ns fun s hs => h s (List.mem_cons_of_mem n hs); omega⟩
    show ((readBytes n g).1 ++ (readChunks (readBytes n g).2 ns).1,
        (readChunks (readBytes n g).2 ns).2) = readBytes (n :: ns).sum g
    rw [List.sum_cons, hk, hm, show 8 * k + 8 * m = 8 * (k + m) by ring,
      readBytes_mul8 (k + m) g, readWords_add k m g, readBytes_mul8 k g,
      ih (fun s hs => h s (List.mem_cons_of_mem n hs)), hm, readBytes_mul8 m _]

/-- Witness for C1's amended statement: three aligned chunks at seed 1. -/
theorem read_aligned_chunks_eq_witness :
    (∀ s ∈ [8, 8, 16], s % 8 = 0) ∧
      readChunks (new 1) [8, 8, 16] = readBytes ([8, 8, 16] : List Nat).sum (new 1) :=
  ⟨by decide, read_aligned_chunks_eq [8, 8, 16] (by decide) (new 1)⟩

/-- C1 (counterexample): at seed 1, reading 1 byte 32 times does not produce
the same bytes as a single 32-byte read — each 1-byte read consumes a whole
64-bit word and discards its 7 high bytes, since `Read` keeps no leftover
buffer between calls. -/
theorem read_one_byte_chunks_ne :
    (readChunks (new 1) (List.replicate 32 1)).1 ≠ (readBytes 32 (new 1)).1 := by decide

/-!  C4: the word-parallel step equals the naive per-bit Rule 30. -/

/-- The word update keeps values inside 64 bits. -/
lemma wordStep_lt (c l r : Nat) (hc : c < 2 ^ 64) (hr : r < 2 ^ 64) :
    wordStep c l r < 2 ^ 64 := by
  apply Nat.xor_lt_two_pow
  · apply Nat.or_lt_two_pow
    · rw [Nat.shiftRight_eq_div_pow]
      exact lt_of_le_of_lt (Nat.div_le_self _ _) hc
    · have h1 : l &&& 1 < 2 ^ 1 := Nat.and_lt_two_pow l (by norm_num)
      rw [Nat.shiftLeft_eq]
      have h2 : (l &&& 1) * 2 ^ 63 ≤ 1 * 2 ^ 63 :=
        Nat.mul_le_mul_right _ (by omega)
      calc (l &&& 1) * 2 ^ 63 ≤ 1 * 2 ^ 63 := h2
        _ < 2 ^ 64 := by norm_num
  · apply Nat.or_lt_two_pow hc
    apply Nat.or_lt_two_pow
    · exact Nat.mod_lt _ (by norm_num)
    · rw [Nat.shiftRight_eq_div_pow]
      exact lt_of_le_of_lt (Nat.div_le_self _ _) hr

/-- Bit `k` of the word-parallel update is the Rule 30 bit whose left
neighbor crosses into `l` at `k = 63` and whose right neighbor crosses into
`r` at `k = 0`. -/
lemma wordStep_testBit (c l r : Nat) (hc : c < 2 ^ 64) (hr : r < 2 ^ 64)
    (k : Nat) (hk : k < 64) :
    (wordStep c l r).testBit k =
      rule30Bit (if k = 63 then l.testBit 0 else c.testBit (k + 1))
        (c.testBit k)
        (if k = 0 then r.testBit 63 else c.testBit (k - 1)) := by
  have hA : ((c >>> 1) ||| ((l &&& 1) <<< 63)).testBit k =
      (if k = 63 then l.testBit 0 else c.testBit (k + 1)) := by
    rw [Nat.testBit_or, Nat.testBit_shiftRight, Nat.testBit_shiftLeft]
    by_cases h63 : k = 63
    · subst h63
      have h64 : c.testBit (1 + 63) = false := testBit_ge_64 hc (by omega)
      simp [h64, Nat.testBit_and]
    · have hlt : ¬ 63 ≤ k := by omega
      simp [h63, hlt, Nat.add_comm 1 k]
  have hB : (c ||| (((c <<< 1) % 2 ^ 64) ||| (r >>> 63))).testBit k =
      (c.testBit k || (if k = 0 then r.testBit 63 else c.testBit (k - 1))) := by
    rw [Nat.testBit_or, Nat.testBit_or, Nat.testBit_mod_two_pow, Nat.testBit_shiftLeft,
      Nat.testBit_shiftRight]
    by_cases h0 : k = 0
    · subst h0
      simp
    · have h1 : 1 ≤ k := by omega
      have hrf : r.testBit (63 + k) = false := testBit_ge_64 hr (by omega)
      simp [h0, hk, h1, hrf]
  rw [wordStep, Nat.testBit_xor, hA, hB, rule30Bit]

/-- Packed bits stay below `2 ^ w`. -/
lemma ofBits_lt (f : Nat → Bool) (w : Nat) : ofBits f w < 2 ^ w := by
  induction w with
  | zero => simp [ofBits]
  | succ w ih =>
    have hif : (if f w then 2 ^ w else 0) ≤ 2 ^ w := by split <;> simp
    have hpow : 2 ^ (w + 1) = 2 ^ w + 2 ^ w := by rw [Nat.pow_succ]; omega
    show (if f w then 2 ^ w else 0) + ofBits f w < 2 ^ (w + 1)
    omega

/-- Bit `j` of the packed bits is `f j` when `j < w`. -/
lemma ofBits_testBit (f : Nat → Bool) (w j : Nat) :
    (ofBits f w).testBit j = (decide (j < w) && f j) := by
  induction w with
  | zero => simp [ofBits]
  | succ w ih =>
    by_cases hj : j < w
    · cases hf : f w
      · show ((if f w then 2 ^ w else 0) + ofBits f w).testBit j = _
        rw [hf, if_neg (by simp), Nat.zero_add, ih]
        simp [hj, show j < w + 1 by omega]
      · show ((if f w then 2 ^ w else 0) + ofBits f w).testBit j = _
        rw [hf, if_pos rfl, Nat.testBit_two_pow_add_gt hj, ih]
        simp [hj, show j < w + 1 by omega]
    · by_cases hjw : j = w
      · subst hjw
        cases hf : f j
        · show ((if f j then 2 ^ j else 0) + ofBits f j).testBit j = _
          rw [hf, if_neg (by simp), Nat.zero_add, ih]
          simp [hf]
        · show ((if f j then 2 ^ j else 0) + ofBits f j).testBit j = _
          rw [hf, if_pos rfl, Nat.testBit_two_pow_add_eq]
          rw [ih]
          simp [hf]
      · have hjgt : w + 1 ≤ j := by omega
        have hlt : ofBits f (w + 1) < 2 ^ j :=
          lt_of_lt_of_le (ofBits_lt f (w + 1)) (Nat.pow_le_pow_right (by norm_num) hjgt)
        rw [Nat.testBit_lt_two_pow hlt]
        simp [show ¬ j < w + 1 by omega]

/-- C4 (confirmed): on every valid state, one call of the optimized
word-parallel `step` produces exactly the state of the naive per-bit radius-1
Rule 30 reference: each new bit is left XOR (center OR right) with all three
neighbors read from the previous generation, the missing boundary neighbors
borrowed from the adjacent word of the ring (mod 4). -/
theorem step_eq_stepRef (s : CAState) (hs : s.Valid) : step s = stepRef s := by
  obtain ⟨h0, h1, h2, h3⟩ := hs
  have key : ∀ (c l r : Nat) (i : Nat), c < 2 ^ 64 → r < 2 ^ 64 →
      (∀ j, j < 64 →
        rule30Bit (if j = 63 then l.testBit 0 else c.testBit (j + 1))
          (c.testBit j) (if j = 0 then r.testBit 63 else c.testBit (j - 1)) =
        stepSpecBit s i j) →
      wordStep c l r = ofBits (stepSpecBit s i) 64 := by
    intro c l r i hc hr hbit
    apply Nat.eq_of_testBit_eq
    intro j
    by_cases hj : j < 64
    · rw [wordStep_testBit c l r hc hr j hj, ofBits_testBit, hbit j hj]
      simp [hj]
    · have hw : wordStep c l r < 2 ^ j :=
        lt_of_lt_of_le (wordStep_lt c l r hc hr) (Nat.pow_le_pow_right (by norm_num) (by omega))
      have ho : ofBits (stepSpecBit s i) 64 < 2 ^ j :=
        lt_of_lt_of_le (ofBits_lt _ 64) (Nat.pow_le_pow_right (by norm_num) (by omega))
      rw [Nat.testBit_lt_two_pow hw, Nat.testBit_lt_two_pow ho]
  apply CAState.ext
  · exact key s.s0 s.s3 s.s1 0 h0 h1 fun j hj => rfl
  · exact key s.s1 s.s0 s.s2 1 h1 h2 fun j hj => rfl
  · exact key s.s2 s.s1 s.s3 2 h2 h3 fun j hj => rfl
  · exact key s.s3 s.s2 s.s0 3 h3 h0 fun j hj => rfl

/-- Witness for C4 at the state with words 1, 2, 3, 4. -/
theorem step_eq_stepRef_witness :
    (CAState.mk 1 2 3 4).Valid ∧ step ⟨1, 2, 3, 4⟩ = stepRef ⟨1, 2, 3, 4⟩ :=
  ⟨by decide, step_eq_stepRef ⟨1, 2, 3, 4⟩ (by decide)⟩

/-!  C8: the float accessors. -/

/-- Splitting off the bit between the 52-bit and 53-bit truncations. -/
lemma shiftRight_ten_eq (v : Nat) : v >>> 10 = 2 * (v >>> 11) + (v >>> 10) % 2 := by
  rw [Nat.shiftRight_eq_div_pow, Nat.shiftRight_eq_div_pow,
    show (2 : Nat) ^ 11 = 2 ^ 10 * 2 by norm_num, ← Nat.div_div_eq_div_mul]
  omega

/-- When bit 10 of the draw is set, the 52-bit value the code returns differs
from the 53-bit value the spec asks for. -/
lemma float64_ne_spec_of_odd (g : RNG) (h : ((int63 g).1 >>> 10) % 2 = 1) :
    (float64 g).1 ≠ (specFloat64 g).1 := by
  show ¬ ((((int63 g).1 >>> 11 : Nat) : ℚ) / 2 ^ 52 = (((int63 g).1 >>> 10 : Nat) : ℚ) / 2 ^ 53)
  intro heq
  rw [div_eq_div_iff (by norm_num) (by norm_num)] at heq
  have hnat : ((int63 g).1 >>> 11) * 2 ^ 53 = ((int63 g).1 >>> 10) * 2 ^ 52 := by
    exact_mod_cast heq
  have hsplit := shiftRight_ten_eq (int63 g).1
  omega

/-- C8 (code bug): at seed 0 the code's `Float64` is the 52-bit truncation of
the draw scaled by `2 ^ 52` (`Int63() >> 11` leaves 63 - 11 = 52 bits),
which differs from the documented top-53-bits value; bit 10 of the first
draw is set, so the two disagree on this input. -/
theorem float64_mantissa_bug :
    (float64 (new 0)).1 * 2 ^ 52 = (((int63 (new 0)).1 >>> 11 : Nat) : ℚ) ∧
    (specFloat64 (new 0)).1 * 2 ^ 53 = (((int63 (new 0)).1 >>> 10 : Nat) : ℚ) ∧
    (float64 (new 0)).1 ≠ (specFloat64 (new 0)).1 := by
  refine ⟨?_, ?_, ?_⟩
  · show ((((int63 (new 0)).1 >>> 11 : Nat) : ℚ) / 2 ^ 52) * 2 ^ 52 = _
    rw [div_mul_cancel₀ _ (by norm_num : (2 : ℚ) ^ 52 ≠ 0)]
  · show ((((int63 (new 0)).1 >>> 10 : Nat) : ℚ) / 2 ^ 53) * 2 ^ 53 = _
    rw [div_mul_cancel₀ _ (by norm_num : (2 : ℚ) ^ 53 ≠ 0)]
  · exact float64_ne_spec_of_odd (new 0) (by decide)

/-!  C5: correctness of `Int63n`. -/

/-- One-step unfolding of the rejection loop. -/
lemma int63nLoop_eq (max fuel v : Nat) (g : RNG) :
    int63nLoop max fuel v g =
      if v ≤ max then some (v, g)
      else
        match fuel with
        | 0 => none
        | fuel + 1 => int63nLoop max fuel (int63 g).1 (int63 g).2 := by
  cases fuel <;> rfl

/-- Whatever the loop returns was an accepted draw. -/
lemma int63nLoop_le (max : Nat) :
    ∀ (fuel v : Nat) (g : RNG) (w : Nat) (g' : RNG),
      int63nLoop max fuel v g = some (w, g') → w ≤ max := by
  intro fuel
  induction fuel with
  | zero =>
    intro v g w g' h
    rw [int63nLoop_eq] at h
    by_cases hv : v ≤ max
    · rw [if_pos hv] at h
      simp only [Option.some.injEq, Prod.mk.injEq] at h
      omega
    · rw [if_neg hv] at h
      exact absurd h (by simp)
  | succ fuel ih =>
    intro v g w g' h
    rw [int63nLoop_eq] at h
    by_cases hv : v ≤ max
    · rw [if_pos hv] at h
      simp only [Option.some.injEq, Prod.mk.injEq] at h
      omega
    · rw [if_neg hv] at h
      exact ih _ _ _ _ h

/-- Bit 0 of an even number is clear. -/
lemma testBit_double_zero (j : Nat) : (2 * j).testBit 0 = false := by
  simp [Nat.testBit_zero, Nat.mul_mod_right]

/-- Bit `i + 1` of `2 * j` is bit `i` of `j`. -/
lemma testBit_double (j i : Nat) : (2 * j).testBit (i + 1) = j.testBit i := by
  rw [Nat.testBit_add_one, Nat.mul_div_cancel_left j (by norm_num : 0 < 2)]

/-- Bit `i + 1` of `2 * j + 1` is bit `i` of `j`. -/
lemma testBit_double_succ (j i : Nat) : (2 * j + 1).testBit (i + 1) = j.testBit i := by
  rw [Nat.testBit_add_one]
  congr 1
  omega

/-- The power-of-two test distributes over doubling. -/
lemma and_pred_double (j : Nat) (hj : 1 ≤ j) :
    (2 * j) &&& (2 * j - 1) = 2 * (j &&& (j - 1)) := by
  rw [show 2 * j - 1 = 2 * (j - 1) + 1 by omega]
  apply Nat.eq_of_testBit_eq
  intro i
  cases i with
  | zero =>
    rw [Nat.testBit_and]
    simp [testBit_double_zero]
  | succ i =>
    rw [Nat.testBit_and, testBit_double, testBit_double_succ, testBit_double, Nat.testBit_and]

/-- An odd number above 1 fails the power-of-two test. -/
lemma and_pred_odd_ne (j : Nat) (hj : 1 ≤ j) : (2 * j + 1) &&& (2 * j) ≠ 0 := by
  intro h0
  obtain ⟨i, hi⟩ := Nat.ne_zero_implies_bit_true (x := j) (by omega)
  have hbit : ((2 * j + 1) &&& (2 * j)).testBit (i + 1) = true := by
    rw [Nat.testBit_and, testBit_double_succ, testBit_double, hi]
    simp
  rw [h0] at hbit
  simp at hbit

/-- The test `n &&& (n - 1) == 0` used by the Go code recognises exactly the
powers of two among the positive integers. -/
lemma and_pred_eq_zero_iff : ∀ (m : Nat), 0 < m → (m &&& (m - 1) = 0 ↔ ∃ k, m = 2 ^ k) := by
  intro m
  induction m using Nat.strong_induction_on with
  | _ m ih =>
    intro hm
    rcases Nat.lt_or_ge m 2 with h2 | h2
    · have hm1 : m = 1 := by omega
      subst hm1
      constructor
      · intro _
        exact ⟨0, rfl⟩
      · intro _
        rfl
    · rcases Nat.even_or_odd m with he | ho
      · obtain ⟨j, hj⟩ := he
        have hj2 : m = 2 * j := by omega
        have hj1 : 1 ≤ j := by omega
        rw [hj2, and_pred_double j hj1]
        constructor
        · intro h0
          have hz : j &&& (j - 1) = 0 := by omega
          obtain ⟨k, hk⟩ := (ih j (by omega) (by omega)).1 hz
          exact ⟨k + 1, by rw [hk, Nat.pow_succ]; ring⟩
        · rintro ⟨k, hk⟩
          rcases k with _ | k
          · exfalso
            rw [pow_zero] at hk
            omega
          · have hpow : (2 : Nat) ^ (k + 1) = 2 * 2 ^ k := by
              rw [Nat.pow_succ]; ring
            have hj' : j = 2 ^ k := by omega
            have hz : j &&& (j - 1) = 0 := (ih j (by omega) (by omega)).2 ⟨k, hj'⟩
            omega
      · obtain ⟨j, hj⟩ := ho
        have hj1 : 1 ≤ j := by omega
        constructor
        · intro h0
          exfalso
          apply and_pred_odd_ne j hj1
          have hrw : (2 * j + 1) &&& (2 * j) = m &&& (m - 1) := by
            rw [← hj, show 2 * j = m - 1 by omega]
          rw [hrw]
          exact h0
        · rintro ⟨k, hk⟩
          exfalso
          rcases k with _ | k
          · rw [pow_zero] at hk
            omega
          · have hpow : (2 : Nat) ^ (k + 1) = 2 * 2 ^ k := by
              rw [Nat.pow_succ]; ring
            omega

/-- Each of the `q` blocks of `m` consecutive values holds exactly one value
of every residue class. -/
lemma card_range_mul_filter_mod (m t : Nat) (ht : t < m) :
    ∀ q, ((Finset.range (q * m)).filter (fun v => v % m = t)).card = q := by
  intro q
  induction q with
  | zero => simp
  | succ q ih =>
    have hm : 0 < m := by omega
    have hle : q * m ≤ (q + 1) * m := Nat.mul_le_mul_right m (by omega)
    have hsplit : Finset.range ((q + 1) * m) =
        Finset.range (q * m) ∪ Finset.Ico (q * m) ((q + 1) * m) := by
      rw [Finset.range_eq_Ico]
      exact (Finset.Ico_union_Ico_eq_Ico (Nat.zero_le _) hle).symm
    have hdisj : Disjoint ((Finset.range (q * m)).filter (fun v => v % m = t))
        ((Finset.Ico (q * m) ((q + 1) * m)).filter (fun v => v % m = t)) := by
      apply Finset.disjoint_filter_filter
      rw [Finset.range_eq_Ico]
      exact Finset.Ico_disjoint_Ico_consecutive 0 (q * m) ((q + 1) * m)
    have hsingle : (Finset.Ico (q * m) ((q + 1) * m)).filter (fun v => v % m = t) =
        {q * m + t} := by
      apply Finset.ext
      intro x
      simp only [Finset.mem_filter, Finset.mem_Ico, Finset.mem_singleton]
      have hqm : (q + 1) * m = q * m + m := by ring
      constructor
      · rintro ⟨⟨hlo, hhi⟩, hmod⟩
        have hxr : x = (x - q * m) + q * m := by omega
        have hrlt : x - q * m < m := by omega
        have hx : x % m = x - q * m := by
          conv_lhs => rw [hxr]
          rw [Nat.add_mul_mod_self_right, Nat.mod_eq_of_lt hrlt]
        omega
      · rintro rfl
        refine ⟨⟨by omega, by omega⟩, ?_⟩
        rw [Nat.add_comm, Nat.add_mul_mod_self_right, Nat.mod_eq_of_lt ht]
    rw [hsplit, Finset.filter_union, Finset.card_union_of_disjoint hdisj, ih, hsingle,
      Finset.card_singleton]

/-- For a positive non-divisor bound, each residue class meets the accepted
draws exactly `2 ^ 63 / m` times. -/
lemma accepted_count (m t : Nat) (hm : 0 < m) (hm63 : m < 2 ^ 63) (ht : t < m) :
    ((Finset.range (2 ^ 63)).filter (fun v => v ≤ int63nMax m ∧ v % m = t)).card
      = 2 ^ 63 / m := by
  have hdm : m * (2 ^ 63 / m) + 2 ^ 63 % m = 2 ^ 63 := Nat.div_add_mod _ _
  have hmod : 2 ^ 63 % m < m := Nat.mod_lt _ hm
  have hcm : m * (2 ^ 63 / m) = 2 ^ 63 / m * m := Nat.mul_comm _ _
  have hmax : int63nMax m + 1 = 2 ^ 63 / m * m := by
    unfold int63nMax
    omega
  have hsets : (Finset.range (2 ^ 63)).filter (fun v => v ≤ int63nMax m ∧ v % m = t)
      = (Finset.range (2 ^ 63 / m * m)).filter (fun v => v % m = t) := by
    apply Finset.ext
    intro x
    simp only [Finset.mem_filter, Finset.mem_range]
    constructor
    · rintro ⟨hx, hle, hmod'⟩
      exact ⟨by omega, hmod'⟩
    · rintro ⟨hx, hmod'⟩
      exact ⟨by omega, by omega, hmod'⟩
  rw [hsets, card_range_mul_filter_mod m t ht (2 ^ 63 / m)]

/-- C5 (confirmed): for every positive 63-bit bound, `Int63n` returns a value
in `[0, n)`; a power-of-two bound takes a single raw draw masked with
`n - 1`; otherwise the rejection threshold is one less than the largest
multiple of `n` representable in 63 bits, draws above it are rejected and
redrawn, the accepted draw is reduced modulo `n`, and every residue class
contains exactly `2 ^ 63 / n` accepted draw values. -/
theorem int63n_correct (n : Int) (h1 : 0 < n) (h2 : n < 2 ^ 63) (fuel : Nat) (g : RNG) :
    Int63nClaim fuel g n := by
  have e1 : (2 : Int) ^ 63 = 9223372036854775808 := by norm_num
  have e2 : (2 : Nat) ^ 63 = 9223372036854775808 := by norm_num
  have hm0 : 0 < n.toNat := by omega
  have hm63 : n.toNat < 2 ^ 63 := by omega
  have hcast : ((n.toNat : Int)) = n := Int.toNat_of_nonneg (by omega)
  have hne : ¬ n ≤ 0 := by omega
  refine ⟨?_, ?_, ?_⟩
  · -- results lie in [0, n)
    intro res g' hres
    rw [int63n, if_neg hne] at hres
    by_cases hpow : n.toNat &&& (n.toNat - 1) = 0
    · rw [if_pos hpow] at hres
      simp only [Option.some.injEq, Prod.mk.injEq, GoResult.ok.injEq] at hres
      obtain ⟨hval, hg⟩ := hres
      obtain ⟨k, hk⟩ := (and_pred_eq_zero_iff n.toNat hm0).1 hpow
      have hlt : (int63 g).1 &&& (n.toNat - 1) < n.toNat := by
        have h' : n.toNat - 1 < 2 ^ k := by omega
        have := Nat.and_lt_two_pow (int63 g).1 h'
        omega
      constructor
      · rw [← hval]
        exact Int.natCast_nonneg _
      · rw [← hval, ← hcast]
        exact_mod_cast hlt
    · rw [if_neg hpow] at hres
      rcases hloop : int63nLoop (int63nMax n.toNat) fuel (int63 g).1 (int63 g).2
        with _ | ⟨v, g''⟩
      · rw [hloop] at hres
        simp at hres
      · rw [hloop] at hres
        simp only [Option.some.injEq, Prod.mk.injEq, GoResult.ok.injEq] at hres
        obtain ⟨hval, hg⟩ := hres
        have hlt : v % n.toNat < n.toNat := Nat.mod_lt _ hm0
        constructor
        · rw [← hval]
          exact Int.natCast_nonneg _
        · rw [← hval, ← hcast]
          exact_mod_cast hlt
  · -- power-of-two bound: one masked draw
    rintro ⟨k, hk⟩
    have hpow : n.toNat &&& (n.toNat - 1) = 0 := (and_pred_eq_zero_iff n.toNat hm0).2 ⟨k, hk⟩
    rw [int63n, if_neg hne, if_pos hpow]
  · -- non-power-of-two bound
    rintro hnpow
    have hpow : ¬ n.toNat &&& (n.toNat - 1) = 0 := fun h =>
      hnpow ((and_pred_eq_zero_iff n.toNat hm0).1 h)
    have hndvd : 2 ^ 63 % n.toNat ≠ 0 := by
      intro h0
      obtain ⟨k, hkle, hk⟩ := (Nat.dvd_prime_pow Nat.prime_two).1 (Nat.dvd_of_mod_eq_zero h0)
      exact hnpow ⟨k, hk⟩
    refine ⟨?_, ?_, ?_, ?_, ?_⟩
    · have hdm : n.toNat * (2 ^ 63 / n.toNat) + 2 ^ 63 % n.toNat = 2 ^ 63 :=
        Nat.div_add_mod _ _
      have hmod : 2 ^ 63 % n.toNat < n.toNat := Nat.mod_lt _ hm0
      have hcm : n.toNat * (2 ^ 63 / n.toNat) = 2 ^ 63 / n.toNat * n.toNat := Nat.mul_comm _ _
      unfold int63nMax
      refine ⟨by omega, by omega, by omega⟩
    · intro v g1 hv
      rw [int63nLoop_eq, if_pos hv]
    · intro v g1 hv
      rw [int63nLoop_eq, if_neg (by omega)]
    · intro w g' hres
      rw [int63n, if_neg hne, if_neg hpow] at hres
      rcases hloop : int63nLoop (int63nMax n.toNat) fuel (int63 g).1 (int63 g).2
        with _ | ⟨v, g''⟩
      · rw [hloop] at hres
        simp at hres
      · rw [hloop] at hres
        simp only [Option.some.injEq, Prod.mk.injEq, GoResult.ok.injEq] at hres
        obtain ⟨hval, hg⟩ := hres
        exact ⟨v, int63nLoop_le _ _ _ _ _ _ hloop, hval.symm⟩
    · intro t ht
      exact accepted_count n.toNat t hm0 hm63 ht

/-- Witness for C5 at the bound 10, fuel 4, seed 0. -/
theorem int63n_correct_witness :
    (0 : Int) < 10 ∧ (10 : Int) < 2 ^ 63 ∧ Int63nClaim 4 (new 0) 10 :=
  ⟨by norm_num, by norm_num, int63n_correct 10 (by norm_num) (by norm_num) 4 (new 0)⟩

end Ring30Mix
